import Mathlib

/-!
Verification of the page-replacement simulation core
(`src/virtual_memory_sim/src/algorithms/page_replacement.py`).

The embedding models:
* `memory_state` as a `List Int` of length `total_frames.toNat`, slot value `-1`
  being the empty sentinel (`[-1] * total_frames`);
* the LRU `access_history` `OrderedDict` as its key list in insertion order
  (oldest first); `del d[k]` is `List.erase`, re-insertion appends at the end;
* Python `float('inf')` next-use distances as `ℕ∞` (`⊤` = never used again);
* Python's `max(items, key=...)` (which keeps the first maximal item) as a fold
  that replaces the current best only on a strictly larger key;
* runtime errors (`StopIteration` from `next(iter(...))` on an empty dict,
  `ValueError` from `list.index` on a missing element, `max` of an empty
  iterable) as `none`.
-/

/-- One entry of the `history` list: the dict
`{'page_accessed': ..., 'memory_state': ..., 'page_fault': ...}` built at the
top of each loop iteration, where `memory_state` is the copy taken before the
step's mutation. -/
structure StepRecord where
  page_accessed : Int
  memory_state : List Int
  page_fault : Bool
deriving Repr, DecidableEq

/-- `self.memory_state = [-1] * total_frames` (Python repeats a list 0 times
for a non-positive count). -/
def initMem (total_frames : Int) : List Int :=
  List.replicate total_frames.toNat (-1)

namespace LRUAlgorithm

/-- One iteration of the loop body of `LRUAlgorithm.simulate`, acting on
`(memory_state, access_history keys)`; returns the new memory, the new key
list and the fault increment, or `none` on an uncaught runtime error. -/
def lruStep (mem keys : List Int) (p : Int) : Option (List Int × List Int × Nat) :=
  if p ∈ mem then
    some (mem, keys.erase p ++ [p], 0)
  else if (-1) ∈ mem then
    some (mem.set (List.indexOf (-1) mem) p, keys.erase p ++ [p], 1)
  else
    match keys with
    | [] => none
    | lru :: krest =>
      if lru ∈ mem then
        some (mem.set (List.indexOf lru mem) p, krest.erase p ++ [p], 1)
      else
        none

/-- The `for page in page_sequence` loop of `LRUAlgorithm.simulate`. -/
def simulateLoop : List Int → List Int → List Int → Nat →
    Option (Nat × List Int × List StepRecord)
  | mem, _, [], faults => some (faults, mem, [])
  | mem, keys, p :: rest, faults =>
    match lruStep mem keys p with
    | none => none
    | some (mem', keys', fi) =>
      match simulateLoop mem' keys' rest (faults + fi) with
      | none => none
      | some (f, m, hist) => some (f, m, ⟨p, mem, decide (p ∉ mem)⟩ :: hist)

/-- `LRUAlgorithm.simulate`: reset, clear the tracker, run the loop; returns
`(page_faults, memory_state, history)`. -/
def simulate (total_frames : Int) (page_sequence : List Int) :
    Option (Nat × List Int × List StepRecord) :=
  simulateLoop (initMem total_frames) [] page_sequence 0

end LRUAlgorithm

namespace OptimalAlgorithm

/-- Key list, in insertion order, of a Python dict comprehension iterating a
list (first occurrence fixes the position). -/
def dictKeys (l : List Int) : List Int :=
  l.foldl (fun ks k => if k ∈ ks then ks else ks ++ [k]) []

/-- The value `future_use[page]` ends up holding:
`future_sequence.index(page)` when present, else `float('inf')`. -/
def futureUse (future_sequence : List Int) (q : Int) : ℕ∞ :=
  if q ∈ future_sequence then (List.indexOf q future_sequence : ℕ∞) else ⊤

/-- Python `max(items, key=f)` over a nonempty iterable: scans left to right
and replaces the current best only when the key is strictly larger, so the
first maximal item wins. -/
def pyMaxAux (f : Int → ℕ∞) : Int → List Int → Int
  | best, [] => best
  | best, k :: ks => if f best < f k then pyMaxAux f k ks else pyMaxAux f best ks

/-- `OptimalAlgorithm.find_optimal_victim`: builds
`{page: inf for page in current_pages if page != -1}`, fills in next-use
indices, and takes the `max` by value (`none` models `max` raising on an
empty dict). -/
def find_optimal_victim (current_pages future_sequence : List Int) : Option Int :=
  match dictKeys (current_pages.filter (fun q => q != -1)) with
  | [] => none
  | k :: ks => some (pyMaxAux (futureUse future_sequence) k ks)

/-- The memory-state update of one iteration of `OptimalAlgorithm.simulate`:
`future` is `page_sequence[i+1:]`. -/
def optStep (mem : List Int) (p : Int) (future : List Int) : Option (List Int) :=
  if p ∈ mem then some mem
  else if (-1) ∈ mem then some (mem.set (List.indexOf (-1) mem) p)
  else
    match find_optimal_victim mem future with
    | none => none
    | some v => if v ∈ mem then some (mem.set (List.indexOf v mem) p) else none

/-- The `for i, page in enumerate(page_sequence)` loop of
`OptimalAlgorithm.simulate`; the remaining list after the current page is
exactly `page_sequence[i+1:]`. -/
def simulateLoop : List Int → List Int → Nat →
    Option (Nat × List Int × List StepRecord)
  | mem, [], faults => some (faults, mem, [])
  | mem, p :: rest, faults =>
    match optStep mem p rest with
    | none => none
    | some mem' =>
      match simulateLoop mem' rest (faults + (if p ∈ mem then 0 else 1)) with
      | none => none
      | some (f, m, hist) => some (f, m, ⟨p, mem, decide (p ∉ mem)⟩ :: hist)

/-- `OptimalAlgorithm.simulate`: reset then run the loop; returns
`(page_faults, memory_state, history)`. -/
def simulate (total_frames : Int) (page_sequence : List Int) :
    Option (Nat × List Int × List StepRecord) :=
  simulateLoop (initMem total_frames) page_sequence 0

end OptimalAlgorithm

/-- C4 (counterexample): LRU with 3 frames on the reference sequence
`[1,2,3,4,1,2,5,1,2,3,4,5]` does not yield a fault count of 9. -/
theorem lru_belady_sequence_faults_ne_nine :
    (LRUAlgorithm.simulate 3 [1,2,3,4,1,2,5,1,2,3,4,5]).map (fun r => r.1) ≠ some 9 := by
  decide

/-- C4 (amended): LRU with 3 frames on the reference sequence
`[1,2,3,4,1,2,5,1,2,3,4,5]` yields a fault count of 10. -/
theorem lru_belady_sequence_faults_eq_ten :
    (LRUAlgorithm.simulate 3 [1,2,3,4,1,2,5,1,2,3,4,5]).map (fun r => r.1) = some 10 := by
  decide

/-- C7: for both policies, an empty reference sequence yields a successful
result with fault count 0, an empty history, and a final frame state of
`total_frames` slots all holding the empty sentinel `-1`. -/
theorem empty_sequence_result (total_frames : Int) (h : 0 ≤ total_frames) :
    LRUAlgorithm.simulate total_frames [] = some (0, initMem total_frames, []) ∧
    OptimalAlgorithm.simulate total_frames [] = some (0, initMem total_frames, []) ∧
    ((initMem total_frames).length : Int) = total_frames ∧
    ∀ q ∈ initMem total_frames, q = -1 := by
  refine ⟨rfl, rfl, ?_, ?_⟩
  · simp [initMem, Int.toNat_of_nonneg h]
  · intro q hq
    exact List.eq_of_mem_replicate hq

/-- Witness for C7 at `total_frames = 4`. -/
theorem empty_sequence_result_witness :
    LRUAlgorithm.simulate 4 [] = some (0, initMem 4, []) ∧
    OptimalAlgorithm.simulate 4 [] = some (0, initMem 4, []) ∧
    ((initMem 4).length : Int) = 4 ∧
    ∀ q ∈ initMem 4, q = -1 :=
  empty_sequence_result 4 (by decide)

/-- C8: a simulation call with `total_frames ≤ 0` is not rejected: the frame
table is silently constructed empty, an empty sequence returns a successful
zero-fault result, and a nonempty sequence ends in an uncaught runtime error
(`none`) only after the fault counter has been mutated — never an explicit
up-front rejection. -/
theorem no_frame_count_rejection :
    LRUAlgorithm.simulate 0 [] = some (0, [], []) ∧
    OptimalAlgorithm.simulate 0 [] = some (0, [], []) ∧
    LRUAlgorithm.simulate (-3) [] = some (0, [], []) ∧
    LRUAlgorithm.simulate 0 [7] = none ∧
    OptimalAlgorithm.simulate 0 [7] = none :=
  ⟨rfl, rfl, rfl, rfl, rfl⟩

/-- C2: one reference step of the LRU loop always leaves the referenced page
as the most-recently-used (last) tracker entry, and on a fault with no empty
slot the head (oldest) tracker entry is the page evicted: the new memory is
the old one with the faulting page written into the oldest entry's slot, and
that entry is removed from the tracker. -/
theorem lru_recency_refresh_and_eviction
    (mem keys : List Int) (p : Int) (m' k' : List Int) (fi : Nat)
    (hnd : keys.Nodup)
    (h : LRUAlgorithm.lruStep mem keys p = some (m', k', fi)) :
    k'.getLast? = some p ∧
    (p ∉ mem → (-1) ∉ mem →
      ∃ q krest, keys = q :: krest ∧ q ∈ mem ∧
        m' = mem.set (List.indexOf q mem) p ∧ q ∉ k') := by
  unfold LRUAlgorithm.lruStep at h
  split at h
  case isTrue hp =>
    simp only [Option.some.injEq, Prod.mk.injEq] at h
    obtain ⟨-, h2, -⟩ := h
    exact ⟨h2 ▸ List.getLast?_concat _, fun hnp => absurd hp hnp⟩
  case isFalse hp =>
    split at h
    case isTrue he =>
      simp only [Option.some.injEq, Prod.mk.injEq] at h
      obtain ⟨-, h2, -⟩ := h
      exact ⟨h2 ▸ List.getLast?_concat _, fun _ hne => absurd he hne⟩
    case isFalse he =>
      split at h
      · exact absurd h (by simp)
      · rename_i lru krest
        split at h
        case isTrue hl =>
          simp only [Option.some.injEq, Prod.mk.injEq] at h
          obtain ⟨h1, h2, -⟩ := h
          refine ⟨h2 ▸ List.getLast?_concat _, fun _ _ => ⟨lru, krest, rfl, hl, h1.symm, ?_⟩⟩
          have hlp : lru ≠ p := fun e => hp (e ▸ hl)
          have hlk : lru ∉ krest := (List.nodup_cons.mp hnd).1
          rw [← h2]
          intro hmem
          rcases List.mem_append.mp hmem with h' | h'
          · exact hlk (List.mem_of_mem_erase h')
          · exact hlp (List.mem_singleton.mp h')
        case isFalse hl => exact absurd h (by simp)

/-- Witness for C2: LRU step on full memory `[1, 2]`, tracker `[1, 2]`,
reference `3` evicts the oldest entry `1`. -/
theorem lru_recency_refresh_and_eviction_witness :
    ([2, 3] : List Int).getLast? = some 3 ∧
    ((3 : Int) ∉ ([1, 2] : List Int) → (-1 : Int) ∉ ([1, 2] : List Int) →
      ∃ q krest, ([1, 2] : List Int) = q :: krest ∧ q ∈ ([1, 2] : List Int) ∧
        ([3, 2] : List Int) = List.set [1, 2] (List.indexOf q [1, 2]) 3 ∧
        q ∉ ([2, 3] : List Int)) :=
  lru_recency_refresh_and_eviction [1, 2] [1, 2] 3 [3, 2] [2, 3] 1 (by decide) rfl

/-- `pyMaxAux f best l` returns the first maximal element of `best :: l`:
it occurs at some position `n`, its key dominates every element, and every
element at an earlier position has a strictly smaller key. -/
theorem pyMaxAux_first_max (f : Int → ℕ∞) :
    ∀ (l : List Int) (best : Int),
      ∃ n, (best :: l).get? n = some (OptimalAlgorithm.pyMaxAux f best l) ∧
        (∀ q ∈ best :: l, f q ≤ f (OptimalAlgorithm.pyMaxAux f best l)) ∧
        ∀ j q, j < n → (best :: l).get? j = some q →
          f q < f (OptimalAlgorithm.pyMaxAux f best l) := by
  intro l
  induction l with
  | nil =>
    intro best
    refine ⟨0, rfl, ?_, ?_⟩
    · intro q hq
      rw [List.mem_singleton.mp hq, OptimalAlgorithm.pyMaxAux]
    · intro j q hj _
      omega
  | cons k ks ih =>
    intro best
    rw [OptimalAlgorithm.pyMaxAux]
    by_cases hlt : f best < f k
    · rw [if_pos hlt]
      obtain ⟨n, hget, hmax, hfirst⟩ := ih k
      refine ⟨n + 1, by simpa using hget, ?_, ?_⟩
      · intro q hq
        rcases List.mem_cons.mp hq with rfl | hq'
        · exact le_of_lt (lt_of_lt_of_le hlt (hmax k (List.mem_cons_self _ _)))
        · exact hmax q hq'
      · intro j q hj hjq
        cases j with
        | zero =>
          have : best = q := by simpa using hjq
          exact this ▸ lt_of_lt_of_le hlt (hmax k (List.mem_cons_self _ _))
        | succ j' => exact hfirst j' q (by omega) (by simpa using hjq)
    · rw [if_neg hlt]
      have hk_le : f k ≤ f best := le_of_not_lt hlt
      obtain ⟨n, hget, hmax, hfirst⟩ := ih best
      have hbest_le : f best ≤ f (OptimalAlgorithm.pyMaxAux f best ks) :=
        hmax best (List.mem_cons_self _ _)
      cases n with
      | zero =>
        have hb : best = OptimalAlgorithm.pyMaxAux f best ks := by simpa using hget
        refine ⟨0, by simpa using hb, ?_, ?_⟩
        · intro q hq
          rcases List.mem_cons.mp hq with rfl | hq'
          · exact hbest_le
          · rcases List.mem_cons.mp hq' with rfl | hq''
            · exact le_trans hk_le hbest_le
            · exact hmax q (List.mem_cons_of_mem _ hq'')
        · intro j q hj _
          omega
      | succ m =>
        have hbest_lt : f best < f (OptimalAlgorithm.pyMaxAux f best ks) :=
          hfirst 0 best (by omega) rfl
        refine ⟨m + 2, by simpa using hget, ?_, ?_⟩
        · intro q hq
          rcases List.mem_cons.mp hq with rfl | hq'
          · exact hbest_le
          · rcases List.mem_cons.mp hq' with rfl | hq''
            · exact le_trans hk_le hbest_le
            · exact hmax q (List.mem_cons_of_mem _ hq'')
        · intro j q hj hjq
          match j, hjq with
          | 0, hjq =>
            have : best = q := by simpa using hjq
            exact this ▸ hbest_lt
          | 1, hjq =>
            have : k = q := by simpa using hjq
            exact this ▸ lt_of_le_of_lt hk_le hbest_lt
          | (j' + 2), hjq =>
            exact hfirst (j' + 1) q (by omega) (by simpa using hjq)

/-- Folding the dict-comprehension insertion over a duplicate-free list whose
elements avoid the accumulator just appends the list. -/
theorem dictKeys_foldl_of_nodup :
    ∀ (l acc : List Int), l.Nodup → (∀ x ∈ l, x ∉ acc) →
      l.foldl (fun ks k => if k ∈ ks then ks else ks ++ [k]) acc = acc ++ l := by
  intro l
  induction l with
  | nil => intro acc _ _; simp
  | cons k ks ih =>
    intro acc hnd hdisj
    rw [List.foldl_cons, if_neg (hdisj k (List.mem_cons_self _ _))]
    rw [ih (acc ++ [k]) (List.nodup_cons.mp hnd).2 ?_]
    · simp
    · intro x hx hmem
      rcases List.mem_append.mp hmem with h' | h'
      · exact hdisj x (List.mem_cons_of_mem _ hx) h'
      · exact (List.nodup_cons.mp hnd).1 (List.mem_singleton.mp h' ▸ hx)

/-- On a duplicate-free list the dict comprehension preserves the list. -/
theorem dictKeys_eq_self (l : List Int) (h : l.Nodup) :
    OptimalAlgorithm.dictKeys l = l := by
  rw [OptimalAlgorithm.dictKeys, dictKeys_foldl_of_nodup l [] h (by simp), List.nil_append]

/-- C9: when the frame table is full (`-1` nowhere) and duplicate-free,
`find_optimal_victim` returns the resident page at the lowest frame index
among those with maximal next-use distance: the victim sits at some frame
position `n`, dominates every resident page's `futureUse`, and every page at
a lower frame index has a strictly smaller `futureUse`. -/
theorem optimal_tie_break_lowest_index
    (mem future : List Int) (v : Int)
    (hfull : (-1 : Int) ∉ mem) (hnd : mem.Nodup)
    (hv : OptimalAlgorithm.find_optimal_victim mem future = some v) :
    ∃ n, mem.get? n = some v ∧
      (∀ q ∈ mem, OptimalAlgorithm.futureUse future q ≤ OptimalAlgorithm.futureUse future v) ∧
      ∀ j q, j < n → mem.get? j = some q →
        OptimalAlgorithm.futureUse future q < OptimalAlgorithm.futureUse future v := by
  have hfilter : mem.filter (fun q => q != -1) = mem := by
    apply List.filter_eq_self.mpr
    intro a ha
    simp only [bne_iff_ne, ne_eq]
    intro e
    exact hfull (e ▸ ha)
  rw [OptimalAlgorithm.find_optimal_victim, hfilter, dictKeys_eq_self mem hnd] at hv
  match mem, hv, hnd, hfull with
  | k :: ks, hv, hnd, hfull =>
    have hveq : OptimalAlgorithm.pyMaxAux (OptimalAlgorithm.futureUse future) k ks = v := by
      simpa using hv
    obtain ⟨n, hget, hmax, hfirst⟩ := pyMaxAux_first_max (OptimalAlgorithm.futureUse future) ks k
    exact ⟨n, hveq ▸ hget, hveq ▸ hmax, hveq ▸ hfirst⟩

/-- Witness for C9: full table `[3, 5]`, empty future — both pages tie at
`⊤`, and the victim is page `3` in frame 0, the lowest tied index. -/
theorem optimal_tie_break_lowest_index_witness :
    ∃ n, ([3, 5] : List Int).get? n = some 3 ∧
      (∀ q ∈ ([3, 5] : List Int),
        OptimalAlgorithm.futureUse [] q ≤ OptimalAlgorithm.futureUse [] 3) ∧
      ∀ j q, j < n → ([3, 5] : List Int).get? j = some q →
        OptimalAlgorithm.futureUse [] q < OptimalAlgorithm.futureUse [] 3 :=
  optimal_tie_break_lowest_index [3, 5] [] 3 (by decide) (by decide) rfl

/-- The frame-table snapshots a run passes through: each history record holds
the state before its step, and the final memory closes the chain. -/
def beforeStates (m : List Int) (hist : List StepRecord) : List (List Int) :=
  hist.map (fun r => r.memory_state) ++ [m]

/-- How one step's successor state relates to the record it emitted: a hit
leaves the snapshot unchanged, a fault overwrites exactly one slot of the
snapshot with the referenced page. -/
def stepLink (r : StepRecord) (next : List Int) : Prop :=
  (r.page_fault = false → next = r.memory_state) ∧
  (r.page_fault = true → ∃ i, i < r.memory_state.length ∧
    next = r.memory_state.set i r.page_accessed)

theorem beforeStates_cons (m : List Int) (r : StepRecord) (h0 : List StepRecord) :
    beforeStates m (r :: h0) = r.memory_state :: beforeStates m h0 := rfl

/-- An LRU step keeps the memory on a hit and overwrites one slot on a
fault. -/
theorem lruStep_mem_cases (mem keys : List Int) (p : Int) (m' k' : List Int) (fi : Nat)
    (h : LRUAlgorithm.lruStep mem keys p = some (m', k', fi)) :
    (p ∈ mem → m' = mem ∧ fi = 0) ∧
    (p ∉ mem → fi = 1 ∧ ∃ i, i < mem.length ∧ m' = mem.set i p) := by
  unfold LRUAlgorithm.lruStep at h
  split at h
  case isTrue hp =>
    simp only [Option.some.injEq, Prod.mk.injEq] at h
    obtain ⟨h1, -, h3⟩ := h
    exact ⟨fun _ => ⟨h1.symm, h3.symm⟩, fun hnp => absurd hp hnp⟩
  case isFalse hp =>
    refine ⟨fun hp' => absurd hp' hp, fun _ => ?_⟩
    split at h
    case isTrue he =>
      simp only [Option.some.injEq, Prod.mk.injEq] at h
      obtain ⟨h1, -, h3⟩ := h
      exact ⟨h3.symm, List.indexOf (-1) mem, List.indexOf_lt_length.mpr he, h1.symm⟩
    case isFalse he =>
      split at h
      · exact absurd h (by simp)
      · rename_i lru krest
        split at h
        case isTrue hl =>
          simp only [Option.some.injEq, Prod.mk.injEq] at h
          obtain ⟨h1, -, h3⟩ := h
          exact ⟨h3.symm, List.indexOf lru mem, List.indexOf_lt_length.mpr hl, h1.symm⟩
        case isFalse hl => exact absurd h (by simp)

/-- An Optimal step keeps the memory on a hit; on a fault it overwrites one
slot, and when the table is full that slot is the one `find_optimal_victim`
picked. -/
theorem optStep_cases (mem future : List Int) (p : Int) (m' : List Int)
    (h : OptimalAlgorithm.optStep mem p future = some m') :
    (p ∈ mem → m' = mem) ∧
    (p ∉ mem → (∃ i, i < mem.length ∧ m' = mem.set i p) ∧
      ((-1 : Int) ∉ mem → ∃ v, OptimalAlgorithm.find_optimal_victim mem future = some v ∧
        v ∈ mem ∧ m' = mem.set (List.indexOf v mem) p)) := by
  unfold OptimalAlgorithm.optStep at h
  split at h
  case isTrue hp =>
    exact ⟨fun _ => by simpa using h.symm, fun hnp => absurd hp hnp⟩
  case isFalse hp =>
    refine ⟨fun hp' => absurd hp' hp, fun _ => ?_⟩
    split at h
    case isTrue he =>
      have hm : m' = mem.set (List.indexOf (-1) mem) p := by simpa using h.symm
      exact ⟨⟨List.indexOf (-1) mem, List.indexOf_lt_length.mpr he, hm⟩,
        fun hne => absurd he hne⟩
    case isFalse he =>
      split at h
      · exact absurd h (by simp)
      · rename_i v hv
        split at h
        case isTrue hvm =>
          have hm : m' = mem.set (List.indexOf v mem) p := by simpa using h.symm
          exact ⟨⟨List.indexOf v mem, List.indexOf_lt_length.mpr hvm, hm⟩,
            fun _ => ⟨v, hv, hvm, hm⟩⟩
        case isFalse hvm => exact absurd h (by simp)

/-- Trace soundness of the LRU loop: the history is one record per reference,
records carry the pre-step snapshot, the fault flag tests residency in that
snapshot, and consecutive snapshots are linked by at most a one-slot write. -/
theorem lru_loop_trace :
    ∀ (seq mem keys : List Int) (faults f : Nat) (m : List Int) (hist : List StepRecord),
      LRUAlgorithm.simulateLoop mem keys seq faults = some (f, m, hist) →
      hist.length = seq.length ∧
      (beforeStates m hist).get? 0 = some mem ∧
      ∀ k r, hist.get? k = some r →
        seq.get? k = some r.page_accessed ∧
        (r.page_fault = true ↔ r.page_accessed ∉ r.memory_state) ∧
        ∀ next, (beforeStates m hist).get? (k + 1) = some next → stepLink r next := by
  intro seq
  induction seq with
  | nil =>
    intro mem keys faults f m hist h
    rw [LRUAlgorithm.simulateLoop] at h
    simp only [Option.some.injEq, Prod.mk.injEq] at h
    obtain ⟨-, h2, h3⟩ := h
    subst h2; subst h3
    refine ⟨rfl, rfl, ?_⟩
    intro k r hk
    simp at hk
  | cons p rest ih =>
    intro mem keys faults f m hist h
    rw [LRUAlgorithm.simulateLoop] at h
    split at h
    · exact absurd h (by simp)
    · rename_i mem' keys' fi hstep
      split at h
      · exact absurd h (by simp)
      · rename_i f0 m0 hist0 hrec
        simp only [Option.some.injEq, Prod.mk.injEq] at h
        obtain ⟨hf, hm, hh⟩ := h
        subst hf; subst hm; subst hh
        obtain ⟨len0, start0, all0⟩ := ih mem' keys' (faults + fi) f0 m0 hist0 hrec
        refine ⟨by simpa using len0, rfl, ?_⟩
        intro k r hk
        cases k with
        | zero =>
          have hr : (⟨p, mem, decide (p ∉ mem)⟩ : StepRecord) = r := by simpa using hk
          subst hr
          refine ⟨rfl, by simp, ?_⟩
          intro next hnext
          rw [beforeStates_cons] at hnext
          simp only [List.get?_cons_succ] at hnext
          rw [start0] at hnext
          have hn : next = mem' := by
            have := Option.some.inj hnext
            exact this.symm
          rw [hn]
          obtain ⟨hhit, hfault⟩ := lruStep_mem_cases mem keys p mem' keys' fi hstep
          constructor
          · intro hfalse
            have hp : p ∈ mem := by simpa using hfalse
            simpa using (hhit hp).1
          · intro htrue
            have hp : p ∉ mem := by simpa using htrue
            simpa using (hfault hp).2
        | succ k' =>
          have hk' : hist0.get? k' = some r := by simpa using hk
          obtain ⟨hseq, hiff, hlink⟩ := all0 k' r hk'
          refine ⟨by simpa using hseq, hiff, ?_⟩
          intro next hnext
          apply hlink next
          rw [beforeStates_cons] at hnext
          simpa using hnext

/-- Trace soundness of the Optimal loop, as for `lru_loop_trace`. -/
theorem opt_loop_trace :
    ∀ (seq mem : List Int) (faults f : Nat) (m : List Int) (hist : List StepRecord),
      OptimalAlgorithm.simulateLoop mem seq faults = some (f, m, hist) →
      hist.length = seq.length ∧
      (beforeStates m hist).get? 0 = some mem ∧
      ∀ k r, hist.get? k = some r →
        seq.get? k = some r.page_accessed ∧
        (r.page_fault = true ↔ r.page_accessed ∉ r.memory_state) ∧
        ∀ next, (beforeStates m hist).get? (k + 1) = some next → stepLink r next := by
  intro seq
  induction seq with
  | nil =>
    intro mem faults f m hist h
    rw [OptimalAlgorithm.simulateLoop] at h
    simp only [Option.some.injEq, Prod.mk.injEq] at h
    obtain ⟨-, h2, h3⟩ := h
    subst h2; subst h3
    refine ⟨rfl, rfl, ?_⟩
    intro k r hk
    simp at hk
  | cons p rest ih =>
    intro mem faults f m hist h
    rw [OptimalAlgorithm.simulateLoop] at h
    split at h
    · exact absurd h (by simp)
    · rename_i mem' hstep
      split at h
      · exact absurd h (by simp)
      · rename_i f0 m0 hist0 hrec
        simp only [Option.some.injEq, Prod.mk.injEq] at h
        obtain ⟨hf, hm, hh⟩ := h
        subst hf; subst hm; subst hh
        obtain ⟨len0, start0, all0⟩ := ih mem' (faults + (if p ∈ mem then 0 else 1)) f0 m0 hist0 hrec
        refine ⟨by simpa using len0, rfl, ?_⟩
        intro k r hk
        cases k with
        | zero =>
          have hr : (⟨p, mem, decide (p ∉ mem)⟩ : StepRecord) = r := by simpa using hk
          subst hr
          refine ⟨rfl, by simp, ?_⟩
          intro next hnext
          rw [beforeStates_cons] at hnext
          simp only [List.get?_cons_succ] at hnext
          rw [start0] at hnext
          have hn : next = mem' := (Option.some.inj hnext).symm
          rw [hn]
          obtain ⟨hhit, hfault⟩ := optStep_cases mem rest p mem' hstep
          constructor
          · intro hfalse
            have hp : p ∈ mem := by simpa using hfalse
            simpa using hhit hp
          · intro htrue
            have hp : p ∉ mem := by simpa using htrue
            simpa using (hfault hp).1
        | succ k' =>
          have hk' : hist0.get? k' = some r := by simpa using hk
          obtain ⟨hseq, hiff, hlink⟩ := all0 k' r hk'
          refine ⟨by simpa using hseq, hiff, ?_⟩
          intro next hnext
          apply hlink next
          rw [beforeStates_cons] at hnext
          simpa using hnext

/-- C3: for both policies and every input sequence, the history is one record
per reference; the chain of stored snapshots starts at the freshly reset
frame table, each record's successor snapshot differs from the record's own
snapshot exactly by the at-most-one-slot write of that step (so the stored
snapshot is the state before the step's mutation), and the fault flag is
true iff the referenced page was not resident in the stored snapshot. -/
theorem snapshot_fault_semantics
    (total_frames : Int) (seq : List Int) (f : Nat) (m : List Int)
    (hist : List StepRecord) (k : Nat) (r : StepRecord) (next : List Int)
    (hrun : LRUAlgorithm.simulate total_frames seq = some (f, m, hist) ∨
      OptimalAlgorithm.simulate total_frames seq = some (f, m, hist))
    (hk : hist.get? k = some r)
    (hnext : (beforeStates m hist).get? (k + 1) = some next) :
    hist.length = seq.length ∧
    (beforeStates m hist).get? 0 = some (initMem total_frames) ∧
    seq.get? k = some r.page_accessed ∧
    (r.page_fault = true ↔ r.page_accessed ∉ r.memory_state) ∧
    stepLink r next := by
  rcases hrun with hrun | hrun
  · obtain ⟨hlen, hstart, hall⟩ := lru_loop_trace seq (initMem total_frames) [] 0 f m hist hrun
    obtain ⟨h1, h2, h3⟩ := hall k r hk
    exact ⟨hlen, hstart, h1, h2, h3 next hnext⟩
  · obtain ⟨hlen, hstart, hall⟩ := opt_loop_trace seq (initMem total_frames) 0 f m hist hrun
    obtain ⟨h1, h2, h3⟩ := hall k r hk
    exact ⟨hlen, hstart, h1, h2, h3 next hnext⟩

/-- Witness for C3: the LRU run with one frame on the sequence `[1]`. -/
theorem snapshot_fault_semantics_witness :
    ([⟨1, [-1], true⟩] : List StepRecord).length = ([1] : List Int).length ∧
    (beforeStates [1] [⟨1, [-1], true⟩]).get? 0 = some (initMem 1) ∧
    ([1] : List Int).get? 0 =
      some ((⟨1, [-1], true⟩ : StepRecord).page_accessed) ∧
    ((⟨1, [-1], true⟩ : StepRecord).page_fault = true ↔
      (⟨1, [-1], true⟩ : StepRecord).page_accessed ∉
        (⟨1, [-1], true⟩ : StepRecord).memory_state) ∧
    stepLink ⟨1, [-1], true⟩ [1] :=
  snapshot_fault_semantics 1 [1] 1 [1] [⟨1, [-1], true⟩] 0 ⟨1, [-1], true⟩ [1]
    (Or.inl rfl) rfl rfl

/-- The spec's `nextUse(q)` at step `i` of sequence `S`: the smallest index
`j > i` with `S[j] = q` (here `i + 1` plus the first occurrence position in
the suffix `S[i+1:]`), or `⊤` when `q` never recurs in `S[i+1:]`. -/
def specNextUse (S : List Int) (i : Nat) (q : Int) : ℕ∞ :=
  if q ∈ S.drop (i + 1) then ((i + 1 + List.indexOf q (S.drop (i + 1)) : Nat) : ℕ∞)
  else ⊤

/-- Positions before the first occurrence do not hold the element. -/
theorem get?_ne_of_lt_indexOf (a : Int) :
    ∀ (l : List Int) (k : Nat), k < List.indexOf a l → l.get? k ≠ some a := by
  intro l
  induction l with
  | nil => intro k hk _; simp at hk
  | cons b bs ih =>
    intro k hk
    by_cases hba : b = a
    · rw [List.indexOf_cons_eq _ hba] at hk; omega
    · rw [List.indexOf_cons_ne _ hba] at hk
      cases k with
      | zero =>
        intro h
        exact hba (Option.some.inj h)
      | succ k' =>
        simpa using ih k' (by omega)

/-- `specNextUse` matches the spec's words: a finite value is an index
`j > i` holding `q` with no occurrence of `q` strictly between `i` and `j`,
and the value is `⊤` exactly when `q` does not recur in `S[i+1:]`. -/
theorem specNextUse_characterization (S : List Int) (i : Nat) (q : Int) :
    (∀ j : Nat, specNextUse S i q = (j : ℕ∞) →
      i < j ∧ S.get? j = some q ∧ ∀ k, i < k → k < j → S.get? k ≠ some q) ∧
    (specNextUse S i q = ⊤ ↔ q ∉ S.drop (i + 1)) := by
  unfold specNextUse
  by_cases hq : q ∈ S.drop (i + 1)
  · rw [if_pos hq]
    constructor
    · intro j hj
      have hjj : i + 1 + List.indexOf q (S.drop (i + 1)) = j := by exact_mod_cast hj
      subst hjj
      refine ⟨by omega, ?_, ?_⟩
      · rw [← List.get?_drop]
        exact List.indexOf_get? hq
      · intro k hik hkj hk
        have hk' : k - (i + 1) < List.indexOf q (S.drop (i + 1)) := by omega
        have : (S.drop (i + 1)).get? (k - (i + 1)) = some q := by
          rw [List.get?_drop]
          rw [show i + 1 + (k - (i + 1)) = k by omega]
          exact hk
        exact get?_ne_of_lt_indexOf q (S.drop (i + 1)) (k - (i + 1)) hk' this
    · constructor
      · intro h
        exact absurd h (ENat.coe_ne_top _)
      · intro h
        exact absurd hq h
  · rw [if_neg hq]
    refine ⟨fun j hj => absurd hj.symm (by simp), by simp [hq]⟩

/-- Membership in the dict-comprehension fold. -/
theorem mem_dictKeys_foldl :
    ∀ (l acc : List Int) (x : Int),
      x ∈ l.foldl (fun ks k => if k ∈ ks then ks else ks ++ [k]) acc ↔
        x ∈ acc ∨ x ∈ l := by
  intro l
  induction l with
  | nil => intro acc x; simp
  | cons k ks ih =>
    intro acc x
    rw [List.foldl_cons, ih]
    by_cases hk : k ∈ acc
    · rw [if_pos hk]
      constructor
      · rintro (h | h)
        · exact Or.inl h
        · exact Or.inr (List.mem_cons_of_mem _ h)
      · rintro (h | h)
        · exact Or.inl h
        · rcases List.mem_cons.mp h with rfl | h'
          · exact Or.inl hk
          · exact Or.inr h'
    · rw [if_neg hk]
      constructor
      · rintro (h | h)
        · rcases List.mem_append.mp h with h' | h'
          · exact Or.inl h'
          · exact Or.inr (List.mem_cons.mpr (Or.inl (List.mem_singleton.mp h')))
        · exact Or.inr (List.mem_cons_of_mem _ h)
      · rintro (h | h)
        · exact Or.inl (List.mem_append.mpr (Or.inl h))
        · rcases List.mem_cons.mp h with rfl | h'
          · exact Or.inl (List.mem_append.mpr (Or.inr (List.mem_singleton.mpr rfl)))
          · exact Or.inr h'

/-- A full frame table filtered by the comprehension's `page != -1` guard is
unchanged. -/
theorem filter_ne_sentinel_of_full (mem : List Int) (hfull : (-1 : Int) ∉ mem) :
    mem.filter (fun q => q != -1) = mem := by
  apply List.filter_eq_self.mpr
  intro a ha
  simp only [bne_iff_ne, ne_eq]
  intro e
  exact hfull (e ▸ ha)

/-- On a full table, the victim `find_optimal_victim` returns is resident and
its `futureUse` dominates every resident page's. -/
theorem find_optimal_victim_max (mem future : List Int) (v : Int)
    (hfull : (-1 : Int) ∉ mem)
    (hv : OptimalAlgorithm.find_optimal_victim mem future = some v) :
    v ∈ mem ∧ ∀ q ∈ mem,
      OptimalAlgorithm.futureUse future q ≤ OptimalAlgorithm.futureUse future v := by
  rw [OptimalAlgorithm.find_optimal_victim, filter_ne_sentinel_of_full mem hfull] at hv
  split at hv
  · exact absurd hv (by simp)
  · rename_i k ks hd
    have hveq : OptimalAlgorithm.pyMaxAux (OptimalAlgorithm.futureUse future) k ks = v := by
      simpa using hv
    obtain ⟨n, hget, hmax, -⟩ := pyMaxAux_first_max (OptimalAlgorithm.futureUse future) ks k
    have hvkeys : v ∈ k :: ks := hveq ▸ List.get?_mem hget
    constructor
    · have : v ∈ OptimalAlgorithm.dictKeys mem := hd ▸ hvkeys
      rw [OptimalAlgorithm.dictKeys] at this
      rcases (mem_dictKeys_foldl mem [] v).mp this with h' | h'
      · simp at h'
      · exact h'
    · intro q hq
      have hq' : q ∈ OptimalAlgorithm.dictKeys mem := by
        rw [OptimalAlgorithm.dictKeys]
        exact (mem_dictKeys_foldl mem [] q).mpr (Or.inr hq)
      rw [hd] at hq'
      exact hveq ▸ hmax q hq'

/-- Comparing next-use distances of the suffix list is the same as comparing
the spec's absolute next-use indices. -/
theorem futureUse_le_specNextUse_le (S fut : List Int) (i : Nat)
    (hd : S.drop (i + 1) = fut) (q v : Int)
    (h : OptimalAlgorithm.futureUse fut q ≤ OptimalAlgorithm.futureUse fut v) :
    specNextUse S i q ≤ specNextUse S i v := by
  subst hd
  unfold OptimalAlgorithm.futureUse at h
  unfold specNextUse
  by_cases hq : q ∈ S.drop (i + 1) <;> by_cases hv' : v ∈ S.drop (i + 1)
  · rw [if_pos hq, if_pos hv'] at h ⊢
    have hle : List.indexOf q (S.drop (i + 1)) ≤ List.indexOf v (S.drop (i + 1)) := by
      exact_mod_cast h
    exact_mod_cast Nat.add_le_add_left hle (i + 1)
  · rw [if_neg hv']
    exact le_top
  · rw [if_neg hq, if_pos hv'] at h
    exact absurd (top_le_iff.mp h) (ENat.coe_ne_top _)
  · rw [if_neg hq, if_neg hv']

/-- Victim maximality along an Optimal run: at any full-table fault of the
loop started at suffix position `i0`, the page overwritten is a resident page
whose spec-level next use is maximal. -/
theorem opt_loop_victim :
    ∀ (rest S : List Int) (i0 : Nat) (mem : List Int) (faults f : Nat)
      (m : List Int) (hist : List StepRecord),
      rest = S.drop i0 →
      OptimalAlgorithm.simulateLoop mem rest faults = some (f, m, hist) →
      ∀ k r, hist.get? k = some r → r.page_fault = true →
        (-1 : Int) ∉ r.memory_state →
        ∃ v, v ∈ r.memory_state ∧
          (∀ q ∈ r.memory_state,
            specNextUse S (i0 + k) q ≤ specNextUse S (i0 + k) v) ∧
          ∀ next, (beforeStates m hist).get? (k + 1) = some next →
            next = r.memory_state.set (List.indexOf v r.memory_state) r.page_accessed := by
  intro rest
  induction rest with
  | nil =>
    intro S i0 mem faults f m hist _ h k r hk
    rw [OptimalAlgorithm.simulateLoop] at h
    simp only [Option.some.injEq, Prod.mk.injEq] at h
    obtain ⟨-, -, hh⟩ := h
    rw [← hh] at hk
    simp at hk
  | cons p rest' ih =>
    intro S i0 mem faults f m hist hdrop h k r hk hfault hfull
    rw [OptimalAlgorithm.simulateLoop] at h
    split at h
    · exact absurd h (by simp)
    · rename_i mem' hstep
      split at h
      · exact absurd h (by simp)
      · rename_i f0 m0 hist0 hrec
        simp only [Option.some.injEq, Prod.mk.injEq] at h
        obtain ⟨hf, hm, hh⟩ := h
        subst hf; subst hm; subst hh
        have hdrop' : rest' = S.drop (i0 + 1) := by
          rw [← List.tail_drop, ← hdrop]
          rfl
        cases k with
        | zero =>
          have hr : (⟨p, mem, decide (p ∉ mem)⟩ : StepRecord) = r := by simpa using hk
          subst hr
          have hp : p ∉ mem := by simpa using hfault
          have hfullm : (-1 : Int) ∉ mem := by simpa using hfull
          obtain ⟨-, hfaultcase⟩ := optStep_cases mem rest' p mem' hstep
          obtain ⟨-, hvic⟩ := hfaultcase hp
          obtain ⟨v, hvfind, hvmem, hmem'⟩ := hvic hfullm
          obtain ⟨hvm, hvmax⟩ := find_optimal_victim_max mem rest' v hfullm hvfind
          refine ⟨v, by simpa using hvm, ?_, ?_⟩
          · intro q hq
            have hq' : q ∈ mem := by simpa using hq
            have hcmp := hvmax q hq'
            have hshift := futureUse_le_specNextUse_le S rest' i0 hdrop'.symm q v hcmp
            simpa using hshift
          · intro next hnext
            rw [beforeStates_cons] at hnext
            simp only [List.get?_cons_succ] at hnext
            obtain ⟨-, hstart0, -⟩ :=
              opt_loop_trace rest' mem' (faults + (if p ∈ mem then 0 else 1)) f0 m0 hist0 hrec
            rw [hstart0] at hnext
            have hn : next = mem' := (Option.some.inj hnext).symm
            rw [hn]
            exact hmem'
        | succ k' =>
          have hk' : hist0.get? k' = some r := by simpa using hk
          obtain ⟨v, hvm, hvmax, hlink⟩ :=
            ih S (i0 + 1) mem' (faults + (if p ∈ mem then 0 else 1)) f0 m0 hist0
              hdrop' hrec k' r hk' hfault hfull
          refine ⟨v, hvm, ?_, ?_⟩
          · intro q hq
            have hcmp := hvmax q hq
            rw [show i0 + 1 + k' = i0 + (k' + 1) by omega] at hcmp
            exact hcmp
          · intro next hnext
            apply hlink next
            rw [beforeStates_cons] at hnext
            simpa using hnext

/-- C1: along any Optimal run, at every faulting step `k` whose stored
snapshot has no empty slot, there is a resident victim `v` whose
`specNextUse` (the smallest recurrence index after `k`, `⊤` if none) is
maximal among all resident pages, and the successor frame state is the
snapshot with the faulting page written into `v`'s slot. -/
theorem optimal_victim_farthest_next_use
    (total_frames : Int) (seq : List Int) (f : Nat) (m : List Int)
    (hist : List StepRecord) (k : Nat) (r : StepRecord) (next : List Int)
    (hrun : OptimalAlgorithm.simulate total_frames seq = some (f, m, hist))
    (hk : hist.get? k = some r)
    (hfault : r.page_fault = true)
    (hfull : (-1 : Int) ∉ r.memory_state)
    (hnext : (beforeStates m hist).get? (k + 1) = some next) :
    ∃ v, v ∈ r.memory_state ∧
      (∀ q ∈ r.memory_state, specNextUse seq k q ≤ specNextUse seq k v) ∧
      next = r.memory_state.set (List.indexOf v r.memory_state) r.page_accessed := by
  obtain ⟨v, hvm, hvmax, hlink⟩ :=
    opt_loop_victim seq seq 0 (initMem total_frames) 0 f m hist (by simp) hrun
      k r hk hfault hfull
  exact ⟨v, hvm, by simpa using hvmax, hlink next hnext⟩

/-- Witness for C1: Optimal with one frame on `[1, 2]`; step 1 faults on a
full table `[1]` and evicts page `1`. -/
theorem optimal_victim_farthest_next_use_witness :
    ∃ v, v ∈ ([1] : List Int) ∧
      (∀ q ∈ ([1] : List Int),
        specNextUse [1, 2] 1 q ≤ specNextUse [1, 2] 1 v) ∧
      ([2] : List Int) =
        List.set [1] (List.indexOf v [1]) ((⟨2, [1], true⟩ : StepRecord).page_accessed) :=
  optimal_victim_farthest_next_use 1 [1, 2] 2 [2]
    [⟨1, [-1], true⟩, ⟨2, [1], true⟩] 1 ⟨2, [1], true⟩ [2]
    rfl rfl rfl (by decide) rfl

/-- Counting after a one-slot write: the new count of `b` plus the old
slot-value hit equals the old count plus the new slot-value hit. -/
theorem count_set_add (b a : Int) :
    ∀ (l : List Int) (i : Nat) (c : Int), l.get? i = some c →
      (l.set i a).count b + (if c = b then 1 else 0) =
        l.count b + (if a = b then 1 else 0) := by
  intro l
  induction l with
  | nil => intro i c hc; simp at hc
  | cons x xs ih =>
    intro i c hc
    cases i with
    | zero =>
      have hcx : x = c := by simpa using hc
      subst hcx
      simp only [List.set_cons_zero, List.count_cons, beq_iff_eq]
      omega
    | succ j =>
      have hc' : xs.get? j = some c := by simpa using hc
      have := ih j c hc'
      simp only [List.set_cons_succ, List.count_cons, beq_iff_eq]
      omega

/-- No page identifier (value other than the `-1` sentinel) occupies more
than one frame slot. -/
def noDupResidents (mem : List Int) : Prop :=
  ∀ q : Int, q ≠ -1 → mem.count q ≤ 1

/-- Writing a non-resident page into one slot preserves the no-duplicate
property. -/
theorem noDupResidents_set (mem : List Int) (i : Nat) (p c : Int)
    (hget : mem.get? i = some c) (hp : p ∉ mem) (hinv : noDupResidents mem) :
    noDupResidents (mem.set i p) := by
  intro q hq
  have h := count_set_add q p mem i c hget
  by_cases hpq : p = q
  · subst hpq
    have hz : mem.count p = 0 := List.count_eq_zero_of_not_mem hp
    rw [hz] at h
    split_ifs at h <;> omega
  · rw [if_neg hpq] at h
    have h2 := hinv q hq
    split_ifs at h <;> omega

/-- Invariant preservation along the LRU loop: frame-count and
no-duplicate-resident facts for the final state and every snapshot. -/
theorem lru_loop_invariant :
    ∀ (seq mem keys : List Int) (faults f : Nat) (m : List Int) (hist : List StepRecord),
      LRUAlgorithm.simulateLoop mem keys seq faults = some (f, m, hist) →
      noDupResidents mem →
      (m.length = mem.length ∧ noDupResidents m) ∧
      ∀ r ∈ hist, r.memory_state.length = mem.length ∧ noDupResidents r.memory_state := by
  intro seq
  induction seq with
  | nil =>
    intro mem keys faults f m hist h hinv
    rw [LRUAlgorithm.simulateLoop] at h
    simp only [Option.some.injEq, Prod.mk.injEq] at h
    obtain ⟨-, h2, h3⟩ := h
    subst h2; subst h3
    exact ⟨⟨rfl, hinv⟩, by simp⟩
  | cons p rest ih =>
    intro mem keys faults f m hist h hinv
    rw [LRUAlgorithm.simulateLoop] at h
    split at h
    · exact absurd h (by simp)
    · rename_i mem' keys' fi hstep
      split at h
      · exact absurd h (by simp)
      · rename_i f0 m0 hist0 hrec
        simp only [Option.some.injEq, Prod.mk.injEq] at h
        obtain ⟨hf, hm, hh⟩ := h
        subst hf; subst hm; subst hh
        have hstep' : mem'.length = mem.length ∧ noDupResidents mem' := by
          obtain ⟨hhit, hfault⟩ := lruStep_mem_cases mem keys p mem' keys' fi hstep
          by_cases hp : p ∈ mem
          · rw [(hhit hp).1]; exact ⟨rfl, hinv⟩
          · obtain ⟨-, i, hi, hmem'⟩ := hfault hp
            subst hmem'
            refine ⟨by simp, ?_⟩
            exact noDupResidents_set mem i p (mem.get ⟨i, hi⟩)
              (List.get?_eq_get hi) hp hinv
        obtain ⟨⟨hml, hmd⟩, hall⟩ := ih mem' keys' (faults + fi) f0 m0 hist0 hrec hstep'.2
        refine ⟨⟨hml.trans hstep'.1, hmd⟩, ?_⟩
        intro r hr
        rcases List.mem_cons.mp hr with rfl | hr'
        · exact ⟨rfl, hinv⟩
        · obtain ⟨h1, h2⟩ := hall r hr'
          exact ⟨h1.trans hstep'.1, h2⟩

/-- Invariant preservation along the Optimal loop, as for
`lru_loop_invariant`. -/
theorem opt_loop_invariant :
    ∀ (seq mem : List Int) (faults f : Nat) (m : List Int) (hist : List StepRecord),
      OptimalAlgorithm.simulateLoop mem seq faults = some (f, m, hist) →
      noDupResidents mem →
      (m.length = mem.length ∧ noDupResidents m) ∧
      ∀ r ∈ hist, r.memory_state.length = mem.length ∧ noDupResidents r.memory_state := by
  intro seq
  induction seq with
  | nil =>
    intro mem faults f m hist h hinv
    rw [OptimalAlgorithm.simulateLoop] at h
    simp only [Option.some.injEq, Prod.mk.injEq] at h
    obtain ⟨-, h2, h3⟩ := h
    subst h2; subst h3
    exact ⟨⟨rfl, hinv⟩, by simp⟩
  | cons p rest ih =>
    intro mem faults f m hist h hinv
    rw [OptimalAlgorithm.simulateLoop] at h
    split at h
    · exact absurd h (by simp)
    · rename_i mem' hstep
      split at h
      · exact absurd h (by simp)
      · rename_i f0 m0 hist0 hrec
        simp only [Option.some.injEq, Prod.mk.injEq] at h
        obtain ⟨hf, hm, hh⟩ := h
        subst hf; subst hm; subst hh
        have hstep' : mem'.length = mem.length ∧ noDupResidents mem' := by
          obtain ⟨hhit, hfault⟩ := optStep_cases mem rest p mem' hstep
          by_cases hp : p ∈ mem
          · rw [hhit hp]; exact ⟨rfl, hinv⟩
          · obtain ⟨⟨i, hi, hmem'⟩, -⟩ := hfault hp
            subst hmem'
            refine ⟨by simp, ?_⟩
            exact noDupResidents_set mem i p (mem.get ⟨i, hi⟩)
              (List.get?_eq_get hi) hp hinv
        obtain ⟨⟨hml, hmd⟩, hall⟩ :=
          ih mem' (faults + (if p ∈ mem then 0 else 1)) f0 m0 hist0 hrec hstep'.2
        refine ⟨⟨hml.trans hstep'.1, hmd⟩, ?_⟩
        intro r hr
        rcases List.mem_cons.mp hr with rfl | hr'
        · exact ⟨rfl, hinv⟩
        · obtain ⟨h1, h2⟩ := hall r hr'
          exact ⟨h1.trans hstep'.1, h2⟩

/-- C6: for both policies and every input of non-negative page identifiers,
the final frame table and every stored snapshot have exactly
`total_frames.toNat` slots, and no page identifier (non-sentinel value)
occupies more than one slot. -/
theorem frame_table_shape_invariant
    (total_frames : Int) (seq : List Int) (f : Nat) (m : List Int)
    (hist : List StepRecord)
    (hpos : ∀ p ∈ seq, 0 ≤ p)
    (hrun : LRUAlgorithm.simulate total_frames seq = some (f, m, hist) ∨
      OptimalAlgorithm.simulate total_frames seq = some (f, m, hist)) :
    (m.length = total_frames.toNat ∧ noDupResidents m) ∧
    ∀ r ∈ hist, r.memory_state.length = total_frames.toNat ∧
      noDupResidents r.memory_state := by
  have hinit : noDupResidents (initMem total_frames) := by
    intro q hq
    rw [initMem, List.count_replicate]
    have hne : ¬ (-1 : Int) = q := fun e => hq e.symm
    simp [hne]
  have hlen : (initMem total_frames).length = total_frames.toNat := by
    simp [initMem]
  rcases hrun with hrun | hrun
  · obtain ⟨⟨hml, hmd⟩, hall⟩ :=
      lru_loop_invariant seq (initMem total_frames) [] 0 f m hist hrun hinit
    exact ⟨⟨hlen ▸ hml, hmd⟩,
      fun r hr => ⟨hlen ▸ (hall r hr).1, (hall r hr).2⟩⟩
  · obtain ⟨⟨hml, hmd⟩, hall⟩ :=
      opt_loop_invariant seq (initMem total_frames) 0 f m hist hrun hinit
    exact ⟨⟨hlen ▸ hml, hmd⟩,
      fun r hr => ⟨hlen ▸ (hall r hr).1, (hall r hr).2⟩⟩

/-- Witness for C6: the LRU run with 2 frames on `[1, 2, 1]`. -/
theorem frame_table_shape_invariant_witness :
    (([1, 2] : List Int).length = (2 : Int).toNat ∧ noDupResidents [1, 2]) ∧
    ∀ r ∈ ([⟨1, [-1, -1], true⟩, ⟨2, [1, -1], true⟩, ⟨1, [1, 2], false⟩] :
        List StepRecord),
      r.memory_state.length = (2 : Int).toNat ∧ noDupResidents r.memory_state :=
  frame_table_shape_invariant 2 [1, 2, 1] 2 [1, 2]
    [⟨1, [-1, -1], true⟩, ⟨2, [1, -1], true⟩, ⟨1, [1, 2], false⟩]
    (by decide) (Or.inl rfl)

/-- The LRU tracker invariant: the tracker's key set is exactly the set of
resident non-sentinel pages, the keys are duplicate-free, and no resident
page occupies two slots. -/
def trackerInvariant (mem keys : List Int) : Prop :=
  (∀ q : Int, q ∈ keys ↔ (q ∈ mem ∧ q ≠ -1)) ∧
  keys.Nodup ∧ noDupResidents mem

/-- On a nonempty frame table satisfying the tracker invariant, an LRU step
on a non-negative page never fails, and the invariant and the frame count
are preserved. -/
theorem lruStep_total_preserving (mem keys : List Int) (p : Int)
    (hinv : trackerInvariant mem keys) (hne : mem ≠ []) (hp : 0 ≤ p) :
    ∃ m' k' fi, LRUAlgorithm.lruStep mem keys p = some (m', k', fi) ∧
      trackerInvariant m' k' ∧ m'.length = mem.length := by
  obtain ⟨hks, hknd, hmd⟩ := hinv
  have hpne : p ≠ -1 := by omega
  by_cases hpmem : p ∈ mem
  · refine ⟨mem, keys.erase p ++ [p], 0, ?_, ⟨?_, ?_, hmd⟩, rfl⟩
    · unfold LRUAlgorithm.lruStep
      rw [if_pos hpmem]
    · intro q
      constructor
      · intro hq
        rcases List.mem_append.mp hq with h' | h'
        · exact (hks q).mp (List.mem_of_mem_erase h')
        · have hqp : q = p := List.mem_singleton.mp h'
          rw [hqp]
          exact ⟨hpmem, hpne⟩
      · rintro ⟨hqm, hqne⟩
        by_cases hqp : q = p
        · rw [hqp]
          exact List.mem_append.mpr (Or.inr (by simp))
        · have hqk : q ∈ keys := (hks q).mpr ⟨hqm, hqne⟩
          exact List.mem_append.mpr (Or.inl ((hknd.mem_erase_iff).mpr ⟨hqp, hqk⟩))
    · refine (hknd.erase p).append (List.nodup_singleton p) ?_
      intro x hx hx'
      exact (hknd.mem_erase_iff.mp hx).1 (List.mem_singleton.mp hx')
  · by_cases hsent : (-1 : Int) ∈ mem
    · have hidx : List.indexOf (-1) mem < mem.length := List.indexOf_lt_length.mpr hsent
      have hgetc : mem.get? (List.indexOf (-1) mem) = some (-1) := by
        rw [List.get?_eq_get hidx, List.indexOf_get]
      have hpk : p ∉ keys := fun h => hpmem ((hks p).mp h).1
      refine ⟨mem.set (List.indexOf (-1) mem) p, keys.erase p ++ [p], 1, ?_,
        ⟨?_, ?_, ?_⟩, by simp⟩
      · unfold LRUAlgorithm.lruStep
        rw [if_neg hpmem, if_pos hsent]
      · intro q
        rw [List.erase_of_not_mem hpk]
        constructor
        · intro hq
          rcases List.mem_append.mp hq with h' | h'
          · obtain ⟨hqm, hqne⟩ := (hks q).mp h'
            refine ⟨?_, hqne⟩
            have hcount := count_set_add q p mem (List.indexOf (-1) mem) (-1) hgetc
            have h1 : 1 ≤ mem.count q := List.count_pos_iff.mpr hqm
            have hq_ne : ¬ ((-1 : Int) = q) := fun e => hqne e.symm
            rw [if_neg hq_ne] at hcount
            have h2 : 1 ≤ (mem.set (List.indexOf (-1) mem) p).count q := by
              split_ifs at hcount <;> omega
            exact List.count_pos_iff.mp (by omega)
          · have hqp : q = p := List.mem_singleton.mp h'
            rw [hqp]
            refine ⟨?_, hpne⟩
            have hcount := count_set_add p p mem (List.indexOf (-1) mem) (-1) hgetc
            rw [if_neg (fun e => hpne e.symm), if_pos rfl] at hcount
            exact List.count_pos_iff.mp (by omega)
        · rintro ⟨hqm', hqne⟩
          rcases List.mem_or_eq_of_mem_set hqm' with hqm | hqp
          · exact List.mem_append.mpr (Or.inl ((hks q).mpr ⟨hqm, hqne⟩))
          · rw [hqp]
            exact List.mem_append.mpr (Or.inr (by simp))
      · rw [List.erase_of_not_mem hpk]
        exact hknd.append (List.nodup_singleton p)
          (fun x hx hx' => hpk ((List.mem_singleton.mp hx') ▸ hx))
      · exact noDupResidents_set mem _ p (-1) hgetc hpmem hmd
    · obtain ⟨x, hx⟩ := List.exists_mem_of_ne_nil mem hne
      have hxk : x ∈ keys := (hks x).mpr ⟨hx, fun e => hsent (e ▸ hx)⟩
      cases keys with
      | nil => exact absurd hxk (List.not_mem_nil x)
      | cons lru krest =>
        have hlrum : lru ∈ mem := ((hks lru).mp (List.mem_cons_self _ _)).1
        have hlrune : lru ≠ -1 := ((hks lru).mp (List.mem_cons_self _ _)).2
        have hidx : List.indexOf lru mem < mem.length := List.indexOf_lt_length.mpr hlrum
        have hgetc : mem.get? (List.indexOf lru mem) = some lru := by
          rw [List.get?_eq_get hidx, List.indexOf_get]
        have hpk : p ∉ lru :: krest := fun h => hpmem ((hks p).mp h).1
        have hpkrest : p ∉ krest := fun h => hpk (List.mem_cons_of_mem _ h)
        have hplru : p ≠ lru := fun e => hpmem (e ▸ hlrum)
        have hlru_not_krest : lru ∉ krest := (List.nodup_cons.mp hknd).1
        have hkrestnd : krest.Nodup := (List.nodup_cons.mp hknd).2
        refine ⟨mem.set (List.indexOf lru mem) p, krest.erase p ++ [p], 1, ?_,
          ⟨?_, ?_, ?_⟩, by simp⟩
        · unfold LRUAlgorithm.lruStep
          rw [if_neg hpmem, if_neg hsent]
          simp only [if_pos hlrum]
        · intro q
          rw [List.erase_of_not_mem hpkrest]
          constructor
          · intro hq
            rcases List.mem_append.mp hq with h' | h'
            · have hqk : q ∈ lru :: krest := List.mem_cons_of_mem _ h'
              obtain ⟨hqm, hqne⟩ := (hks q).mp hqk
              have hqlru : q ≠ lru := fun e => hlru_not_krest (e ▸ h')
              refine ⟨?_, hqne⟩
              have hcount := count_set_add q p mem (List.indexOf lru mem) lru hgetc
              rw [if_neg (fun e => hqlru e.symm)] at hcount
              have h1 : 1 ≤ mem.count q := List.count_pos_iff.mpr hqm
              have h2 : 1 ≤ (mem.set (List.indexOf lru mem) p).count q := by
                split_ifs at hcount <;> omega
              exact List.count_pos_iff.mp (by omega)
            · have hqp : q = p := List.mem_singleton.mp h'
              rw [hqp]
              refine ⟨?_, hpne⟩
              have hcount := count_set_add p p mem (List.indexOf lru mem) lru hgetc
              rw [if_neg (fun e => hplru e.symm), if_pos rfl] at hcount
              exact List.count_pos_iff.mp (by omega)
          · rintro ⟨hqm', hqne⟩
            rcases List.mem_or_eq_of_mem_set hqm' with hqm | hqp
            · by_cases hqlru : q = lru
              · exfalso
                have hcount := count_set_add lru p mem (List.indexOf lru mem) lru hgetc
                rw [if_pos rfl, if_neg hplru] at hcount
                have h1 : 1 ≤ (mem.set (List.indexOf lru mem) p).count lru :=
                  List.count_pos_iff.mpr (hqlru ▸ hqm')
                have h2 : mem.count lru ≤ 1 := hmd lru hlrune
                omega
              · have hqk : q ∈ lru :: krest := (hks q).mpr ⟨hqm, hqne⟩
                rcases List.mem_cons.mp hqk with h' | h'
                · exact absurd h' hqlru
                · exact List.mem_append.mpr (Or.inl h')
            · rw [hqp]
              exact List.mem_append.mpr (Or.inr (by simp))
        · rw [List.erase_of_not_mem hpkrest]
          exact hkrestnd.append (List.nodup_singleton p)
            (fun x hx hx' => hpkrest ((List.mem_singleton.mp hx') ▸ hx))
        · exact noDupResidents_set mem _ p lru hgetc hpmem hmd

/-- Totality of the LRU loop under the tracker invariant. -/
theorem lru_loop_total :
    ∀ (seq mem keys : List Int) (faults : Nat),
      trackerInvariant mem keys → mem ≠ [] → (∀ p ∈ seq, 0 ≤ p) →
      ∃ f m hist, LRUAlgorithm.simulateLoop mem keys seq faults = some (f, m, hist) := by
  intro seq
  induction seq with
  | nil => intro mem keys faults _ _ _; exact ⟨faults, mem, [], rfl⟩
  | cons p rest ih =>
    intro mem keys faults hinv hne hpos
    obtain ⟨m', k', fi, hstep, hinv', hlen⟩ :=
      lruStep_total_preserving mem keys p hinv hne (hpos p (List.mem_cons_self _ _))
    have hne' : m' ≠ [] := by
      intro e
      rw [e] at hlen
      exact hne (List.length_eq_zero.mp hlen.symm)
    obtain ⟨f, m, hist, hrec⟩ := ih m' k' (faults + fi) hinv' hne'
      (fun q hq => hpos q (List.mem_cons_of_mem _ hq))
    refine ⟨f, m, ⟨p, mem, decide (p ∉ mem)⟩ :: hist, ?_⟩
    simp only [LRUAlgorithm.simulateLoop, hstep, hrec]

/-- C10: an LRU step on a non-negative page preserves the tracker invariant
(tracker key set = set of resident non-sentinel pages) and never fails on a
nonempty invariant-satisfying state; consequently, with at least one frame
and non-negative page identifiers, `LRUAlgorithm.simulate` always returns a
result — the loop's error branches are unreachable. -/
theorem lru_tracker_resident_safety :
    (∀ (mem keys : List Int) (p : Int),
      trackerInvariant mem keys → mem ≠ [] → 0 ≤ p →
      ∃ m' k' fi, LRUAlgorithm.lruStep mem keys p = some (m', k', fi) ∧
        trackerInvariant m' k' ∧ m'.length = mem.length) ∧
    ∀ (total_frames : Int) (seq : List Int),
      1 ≤ total_frames → (∀ p ∈ seq, 0 ≤ p) →
      ∃ f m hist, LRUAlgorithm.simulate total_frames seq = some (f, m, hist) := by
  constructor
  · exact lruStep_total_preserving
  · intro total_frames seq hf hpos
    have hinv : trackerInvariant (initMem total_frames) [] := by
      refine ⟨?_, List.nodup_nil, ?_⟩
      · intro q
        simp only [List.not_mem_nil, false_iff]
        rintro ⟨hq, hqne⟩
        exact hqne (List.eq_of_mem_replicate hq)
      · intro q hq
        rw [initMem, List.count_replicate]
        have hne2 : ¬ (-1 : Int) = q := fun e => hq e.symm
        simp [hne2]
    have hne : initMem total_frames ≠ [] := by
      intro e
      have h2 := congrArg List.length e
      rw [initMem] at h2
      simp only [List.length_replicate, List.length_nil] at h2
      omega
    exact lru_loop_total seq (initMem total_frames) [] 0 hinv hne hpos

/-- Witness for C10: a step on state `([5], [5])` with page `7`, and a full
run with 3 frames on `[1, 2, 1]`. -/
theorem lru_tracker_resident_safety_witness :
    (∃ m' k' fi, LRUAlgorithm.lruStep [5] [5] 7 = some (m', k', fi) ∧
      trackerInvariant m' k' ∧ m'.length = ([5] : List Int).length) ∧
    ∃ f m hist, LRUAlgorithm.simulate 3 [1, 2, 1] = some (f, m, hist) := by
  constructor
  · apply lru_tracker_resident_safety.1 [5] [5] 7 ?_ (by decide) (by decide)
    refine ⟨?_, by decide, ?_⟩
    · intro q
      constructor
      · intro hq
        have hq5 : q = 5 := List.mem_singleton.mp hq
        rw [hq5]
        exact ⟨List.mem_singleton.mpr rfl, by decide⟩
      · rintro ⟨hq, -⟩
        exact hq
    · intro q hq
      by_cases h5 : q = (5 : Int)
      · rw [h5]; decide
      · simp [List.count_cons, h5]
  · exact lru_tracker_resident_safety.2 3 [1, 2, 1] (by decide) (by decide)

/-- The set of non-sentinel pages resident in the frame table. -/
def residents (mem : List Int) : Finset Int :=
  (mem.filter (fun q => q != -1)).toFinset

theorem mem_residents (mem : List Int) (q : Int) :
    q ∈ residents mem ↔ q ∈ mem ∧ q ≠ -1 := by
  simp [residents, List.mem_filter, List.mem_toFinset, bne_iff_ne]

/-- Writing a non-sentinel page over an empty slot adds it to the resident
set. -/
theorem residents_set_sentinel (mem : List Int) (idx : Nat) (p : Int)
    (hget : mem.get? idx = some (-1)) (hpne : p ≠ -1) :
    residents (mem.set idx p) = insert p (residents mem) := by
  ext q
  rw [mem_residents, Finset.mem_insert, mem_residents]
  by_cases hq : q = -1
  · rw [hq]
    constructor
    · rintro ⟨-, h⟩; exact absurd rfl h
    · rintro (h | ⟨-, h⟩)
      · exact absurd h.symm hpne
      · exact absurd rfl h
  · have hcount := count_set_add q p mem idx (-1) hget
    rw [if_neg (fun e => hq e.symm)] at hcount
    constructor
    · rintro ⟨hmem', -⟩
      rcases List.mem_or_eq_of_mem_set hmem' with h' | h'
      · exact Or.inr ⟨h', hq⟩
      · exact Or.inl h'
    · rintro (h' | ⟨hm, -⟩)
      · rw [h'] at hcount ⊢
        rw [if_pos rfl] at hcount
        exact ⟨List.count_pos_iff.mp (by omega), hpne⟩
      · refine ⟨?_, hq⟩
        have h1 : 1 ≤ mem.count q := List.count_pos_iff.mpr hm
        have h2 : 1 ≤ (mem.set idx p).count q := by
          split_ifs at hcount <;> omega
        exact List.count_pos_iff.mp (by omega)

/-- Writing a non-sentinel page over an empty slot consumes exactly one
empty slot. -/
theorem count_sentinel_set (mem : List Int) (idx : Nat) (p : Int)
    (hget : mem.get? idx = some (-1)) (hpne : p ≠ -1) :
    (mem.set idx p).count (-1) + 1 = mem.count (-1) := by
  have hcount := count_set_add (-1) p mem idx (-1) hget
  rw [if_pos rfl, if_neg hpne] at hcount
  omega

/-- With enough empty slots for every page not yet resident, the LRU loop
succeeds, adds exactly one fault per distinct new page, and a step faults
exactly when its page is neither initially resident nor seen earlier. -/
theorem lru_loop_enough_frames :
    ∀ (seq mem keys : List Int) (faults : Nat),
      (∀ p ∈ seq, 0 ≤ p) →
      (seq.toFinset \ residents mem).card ≤ mem.count (-1) →
      ∃ m hist,
        LRUAlgorithm.simulateLoop mem keys seq faults =
          some (faults + (seq.toFinset \ residents mem).card, m, hist) ∧
        ∀ k r, hist.get? k = some r →
          (r.page_fault = true ↔
            (r.page_accessed ∉ mem ∧ r.page_accessed ∉ seq.take k)) := by
  intro seq
  induction seq with
  | nil =>
    intro mem keys faults _ _
    refine ⟨mem, [], ?_, ?_⟩
    · simp [LRUAlgorithm.simulateLoop]
    · intro k r hk; simp at hk
  | cons p rest ih =>
    intro mem keys faults hpos hcap
    have hp0 : 0 ≤ p := hpos p (List.mem_cons_self _ _)
    have hpne : p ≠ -1 := by omega
    by_cases hpmem : p ∈ mem
    · have hpres : p ∈ residents mem := (mem_residents mem p).mpr ⟨hpmem, hpne⟩
      have hset : (p :: rest).toFinset \ residents mem =
          rest.toFinset \ residents mem := by
        rw [List.toFinset_cons, Finset.insert_sdiff_of_mem _ hpres]
      rw [hset] at hcap ⊢
      obtain ⟨m, hist, hrec, hfirst⟩ := ih mem (keys.erase p ++ [p]) faults
        (fun q hq => hpos q (List.mem_cons_of_mem _ hq)) hcap
      refine ⟨m, ⟨p, mem, decide (p ∉ mem)⟩ :: hist, ?_, ?_⟩
      · have hstep : LRUAlgorithm.lruStep mem keys p =
            some (mem, keys.erase p ++ [p], 0) := by
          unfold LRUAlgorithm.lruStep
          rw [if_pos hpmem]
        simp only [LRUAlgorithm.simulateLoop, hstep, hrec, Nat.add_zero]
      · intro k r hk
        cases k with
        | zero =>
          have hr : (⟨p, mem, decide (p ∉ mem)⟩ : StepRecord) = r := by simpa using hk
          rw [← hr]
          simp [hpmem]
        | succ k' =>
          have hk' : hist.get? k' = some r := by simpa using hk
          rw [hfirst k' r hk', List.take_succ_cons]
          constructor
          · rintro ⟨hnm, hnt⟩
            refine ⟨hnm, ?_⟩
            intro hmem2
            rcases List.mem_cons.mp hmem2 with h' | h'
            · exact hnm (by rw [h']; exact hpmem)
            · exact hnt h'
          · rintro ⟨hnm, hnt⟩
            exact ⟨hnm, fun h => hnt (List.mem_cons_of_mem _ h)⟩
    · have hpsd : p ∈ (p :: rest).toFinset \ residents mem := by
        rw [Finset.mem_sdiff, List.mem_toFinset]
        exact ⟨List.mem_cons_self _ _, fun h => hpmem ((mem_residents mem p).mp h).1⟩
      have hcard1 : 1 ≤ ((p :: rest).toFinset \ residents mem).card :=
        Finset.card_pos.mpr ⟨p, hpsd⟩
      have hsent : (-1 : Int) ∈ mem := by
        have := le_trans hcard1 hcap
        exact List.count_pos_iff.mp (by omega)
      have hidx : List.indexOf (-1) mem < mem.length := List.indexOf_lt_length.mpr hsent
      have hgetc : mem.get? (List.indexOf (-1) mem) = some (-1) := by
        rw [List.get?_eq_get hidx, List.indexOf_get]
      have hres' : residents (mem.set (List.indexOf (-1) mem) p) =
          insert p (residents mem) :=
        residents_set_sentinel mem _ p hgetc hpne
      have hcnt' : (mem.set (List.indexOf (-1) mem) p).count (-1) + 1 =
          mem.count (-1) :=
        count_sentinel_set mem _ p hgetc hpne
      have hsdiff' : rest.toFinset \ residents (mem.set (List.indexOf (-1) mem) p) =
          ((p :: rest).toFinset \ residents mem).erase p := by
        rw [hres', List.toFinset_cons]
        ext q
        simp only [Finset.mem_sdiff, Finset.mem_erase, Finset.mem_insert, not_or]
        constructor
        · rintro ⟨hq1, hq2, hq3⟩
          exact ⟨hq2, Or.inr hq1, hq3⟩
        · rintro ⟨hq1, hq2 | hq2, hq3⟩
          · exact absurd hq2 hq1
          · exact ⟨hq2, hq1, hq3⟩
      have hcard' : (rest.toFinset \ residents (mem.set (List.indexOf (-1) mem) p)).card + 1 =
          ((p :: rest).toFinset \ residents mem).card := by
        rw [hsdiff', Finset.card_erase_of_mem hpsd]
        omega
      have hcap' : (rest.toFinset \ residents (mem.set (List.indexOf (-1) mem) p)).card ≤
          (mem.set (List.indexOf (-1) mem) p).count (-1) := by omega
      obtain ⟨m, hist, hrec, hfirst⟩ :=
        ih (mem.set (List.indexOf (-1) mem) p) (keys.erase p ++ [p]) (faults + 1)
          (fun q hq => hpos q (List.mem_cons_of_mem _ hq)) hcap'
      refine ⟨m, ⟨p, mem, decide (p ∉ mem)⟩ :: hist, ?_, ?_⟩
      · have hstep : LRUAlgorithm.lruStep mem keys p =
            some (mem.set (List.indexOf (-1) mem) p, keys.erase p ++ [p], 1) := by
          unfold LRUAlgorithm.lruStep
          rw [if_neg hpmem, if_pos hsent]
        simp only [LRUAlgorithm.simulateLoop, hstep, hrec]
        have harith : faults + 1 +
            (rest.toFinset \ residents (mem.set (List.indexOf (-1) mem) p)).card =
            faults + ((p :: rest).toFinset \ residents mem).card := by omega
        rw [harith]
      · intro k r hk
        cases k with
        | zero =>
          have hr : (⟨p, mem, decide (p ∉ mem)⟩ : StepRecord) = r := by simpa using hk
          rw [← hr]
          simp [hpmem]
        | succ k' =>
          have hk' : hist.get? k' = some r := by simpa using hk
          rw [hfirst k' r hk', List.take_succ_cons]
          obtain ⟨-, -, hall⟩ :=
            lru_loop_trace rest (mem.set (List.indexOf (-1) mem) p)
              (keys.erase p ++ [p]) (faults + 1)
              (faults + 1 +
                (rest.toFinset \ residents (mem.set (List.indexOf (-1) mem) p)).card)
              m hist hrec
          obtain ⟨hseq, -, -⟩ := hall k' r hk'
          have hpage_rest : r.page_accessed ∈ rest := List.get?_mem hseq
          have hpage0 : 0 ≤ r.page_accessed :=
            hpos _ (List.mem_cons_of_mem _ hpage_rest)
          have hpagene : r.page_accessed ≠ -1 := by omega
          have hmem_iff : r.page_accessed ∈ mem.set (List.indexOf (-1) mem) p ↔
              (r.page_accessed ∈ mem ∨ r.page_accessed = p) := by
            constructor
            · exact List.mem_or_eq_of_mem_set
            · intro h
              have hcount :=
                count_set_add r.page_accessed p mem (List.indexOf (-1) mem) (-1) hgetc
              rw [if_neg (fun e => hpagene e.symm)] at hcount
              rcases h with h | h
              · have h1 : 1 ≤ mem.count r.page_accessed := List.count_pos_iff.mpr h
                refine List.count_pos_iff.mp ?_
                split_ifs at hcount <;> omega
              · rw [h] at hcount ⊢
                rw [if_pos rfl] at hcount
                exact List.count_pos_iff.mp (by omega)
          constructor
          · rintro ⟨hm', ht⟩
            refine ⟨fun h => hm' (hmem_iff.mpr (Or.inl h)), ?_⟩
            intro hmem2
            rcases List.mem_cons.mp hmem2 with h' | h'
            · exact hm' (hmem_iff.mpr (Or.inr h'))
            · exact ht h'
          · rintro ⟨hm, ht⟩
            refine ⟨?_, fun h => ht (List.mem_cons_of_mem _ h)⟩
            intro h
            rcases hmem_iff.mp h with h' | h'
            · exact hm h'
            · apply ht
              rw [h']
              exact List.mem_cons_self _ _

/-- Optimal analogue of `lru_loop_enough_frames`. -/
theorem opt_loop_enough_frames :
    ∀ (seq mem : List Int) (faults : Nat),
      (∀ p ∈ seq, 0 ≤ p) →
      (seq.toFinset \ residents mem).card ≤ mem.count (-1) →
      ∃ m hist,
        OptimalAlgorithm.simulateLoop mem seq faults =
          some (faults + (seq.toFinset \ residents mem).card, m, hist) ∧
        ∀ k r, hist.get? k = some r →
          (r.page_fault = true ↔
            (r.page_accessed ∉ mem ∧ r.page_accessed ∉ seq.take k)) := by
  intro seq
  induction seq with
  | nil =>
    intro mem faults _ _
    refine ⟨mem, [], ?_, ?_⟩
    · simp [OptimalAlgorithm.simulateLoop]
    · intro k r hk; simp at hk
  | cons p rest ih =>
    intro mem faults hpos hcap
    have hp0 : 0 ≤ p := hpos p (List.mem_cons_self _ _)
    have hpne : p ≠ -1 := by omega
    by_cases hpmem : p ∈ mem
    · have hpres : p ∈ residents mem := (mem_residents mem p).mpr ⟨hpmem, hpne⟩
      have hset : (p :: rest).toFinset \ residents mem =
          rest.toFinset \ residents mem := by
        rw [List.toFinset_cons, Finset.insert_sdiff_of_mem _ hpres]
      rw [hset] at hcap ⊢
      obtain ⟨m, hist, hrec, hfirst⟩ := ih mem faults
        (fun q hq => hpos q (List.mem_cons_of_mem _ hq)) hcap
      refine ⟨m, ⟨p, mem, decide (p ∉ mem)⟩ :: hist, ?_, ?_⟩
      · have hstep : OptimalAlgorithm.optStep mem p rest = some mem := by
          unfold OptimalAlgorithm.optStep
          rw [if_pos hpmem]
        simp only [OptimalAlgorithm.simulateLoop, hstep, hrec, if_pos hpmem, Nat.add_zero]
      · intro k r hk
        cases k with
        | zero =>
          have hr : (⟨p, mem, decide (p ∉ mem)⟩ : StepRecord) = r := by simpa using hk
          rw [← hr]
          simp [hpmem]
        | succ k' =>
          have hk' : hist.get? k' = some r := by simpa using hk
          rw [hfirst k' r hk', List.take_succ_cons]
          constructor
          · rintro ⟨hnm, hnt⟩
            refine ⟨hnm, ?_⟩
            intro hmem2
            rcases List.mem_cons.mp hmem2 with h' | h'
            · exact hnm (by rw [h']; exact hpmem)
            · exact hnt h'
          · rintro ⟨hnm, hnt⟩
            exact ⟨hnm, fun h => hnt (List.mem_cons_of_mem _ h)⟩
    · have hpsd : p ∈ (p :: rest).toFinset \ residents mem := by
        rw [Finset.mem_sdiff, List.mem_toFinset]
        exact ⟨List.mem_cons_self _ _, fun h => hpmem ((mem_residents mem p).mp h).1⟩
      have hcard1 : 1 ≤ ((p :: rest).toFinset \ residents mem).card :=
        Finset.card_pos.mpr ⟨p, hpsd⟩
      have hsent : (-1 : Int) ∈ mem := by
        have := le_trans hcard1 hcap
        exact List.count_pos_iff.mp (by omega)
      have hidx : List.indexOf (-1) mem < mem.length := List.indexOf_lt_length.mpr hsent
      have hgetc : mem.get? (List.indexOf (-1) mem) = some (-1) := by
        rw [List.get?_eq_get hidx, List.indexOf_get]
      have hres' : residents (mem.set (List.indexOf (-1) mem) p) =
          insert p (residents mem) :=
        residents_set_sentinel mem _ p hgetc hpne
      have hcnt' : (mem.set (List.indexOf (-1) mem) p).count (-1) + 1 =
          mem.count (-1) :=
        count_sentinel_set mem _ p hgetc hpne
      have hsdiff' : rest.toFinset \ residents (mem.set (List.indexOf (-1) mem) p) =
          ((p :: rest).toFinset \ residents mem).erase p := by
        rw [hres', List.toFinset_cons]
        ext q
        simp only [Finset.mem_sdiff, Finset.mem_erase, Finset.mem_insert, not_or]
        constructor
        · rintro ⟨hq1, hq2, hq3⟩
          exact ⟨hq2, Or.inr hq1, hq3⟩
        · rintro ⟨hq1, hq2 | hq2, hq3⟩
          · exact absurd hq2 hq1
          · exact ⟨hq2, hq1, hq3⟩
      have hcard' :
          (rest.toFinset \ residents (mem.set (List.indexOf (-1) mem) p)).card + 1 =
          ((p :: rest).toFinset \ residents mem).card := by
        rw [hsdiff', Finset.card_erase_of_mem hpsd]
        omega
      have hcap' :
          (rest.toFinset \ residents (mem.set (List.indexOf (-1) mem) p)).card ≤
          (mem.set (List.indexOf (-1) mem) p).count (-1) := by omega
      obtain ⟨m, hist, hrec, hfirst⟩ :=
        ih (mem.set (List.indexOf (-1) mem) p) (faults + 1)
          (fun q hq => hpos q (List.mem_cons_of_mem _ hq)) hcap'
      refine ⟨m, ⟨p, mem, decide (p ∉ mem)⟩ :: hist, ?_, ?_⟩
      · have hstep : OptimalAlgorithm.optStep mem p rest =
            some (mem.set (List.indexOf (-1) mem) p) := by
          unfold OptimalAlgorithm.optStep
          rw [if_neg hpmem, if_pos hsent]
        simp only [OptimalAlgorithm.simulateLoop, hstep, hrec, if_neg hpmem]
        have harith : faults + 1 +
            (rest.toFinset \ residents (mem.set (List.indexOf (-1) mem) p)).card =
            faults + ((p :: rest).toFinset \ residents mem).card := by omega
        rw [harith]
      · intro k r hk
        cases k with
        | zero =>
          have hr : (⟨p, mem, decide (p ∉ mem)⟩ : StepRecord) = r := by simpa using hk
          rw [← hr]
          simp [hpmem]
        | succ k' =>
          have hk' : hist.get? k' = some r := by simpa using hk
          rw [hfirst k' r hk', List.take_succ_cons]
          obtain ⟨-, -, hall⟩ :=
            opt_loop_trace rest (mem.set (List.indexOf (-1) mem) p) (faults + 1)
              (faults + 1 +
                (rest.toFinset \ residents (mem.set (List.indexOf (-1) mem) p)).card)
              m hist hrec
          obtain ⟨hseq, -, -⟩ := hall k' r hk'
          have hpage_rest : r.page_accessed ∈ rest := List.get?_mem hseq
          have hpage0 : 0 ≤ r.page_accessed :=
            hpos _ (List.mem_cons_of_mem _ hpage_rest)
          have hpagene : r.page_accessed ≠ -1 := by omega
          have hmem_iff : r.page_accessed ∈ mem.set (List.indexOf (-1) mem) p ↔
              (r.page_accessed ∈ mem ∨ r.page_accessed = p) := by
            constructor
            · exact List.mem_or_eq_of_mem_set
            · intro h
              have hcount :=
                count_set_add r.page_accessed p mem (List.indexOf (-1) mem) (-1) hgetc
              rw [if_neg (fun e => hpagene e.symm)] at hcount
              rcases h with h | h
              · have h1 : 1 ≤ mem.count r.page_accessed := List.count_pos_iff.mpr h
                refine List.count_pos_iff.mp ?_
                split_ifs at hcount <;> omega
              · rw [h] at hcount ⊢
                rw [if_pos rfl] at hcount
                exact List.count_pos_iff.mp (by omega)
          constructor
          · rintro ⟨hm', ht⟩
            refine ⟨fun h => hm' (hmem_iff.mpr (Or.inl h)), ?_⟩
            intro hmem2
            rcases List.mem_cons.mp hmem2 with h' | h'
            · exact hm' (hmem_iff.mpr (Or.inr h'))
            · exact ht h'
          · rintro ⟨hm, ht⟩
            refine ⟨?_, fun h => ht (List.mem_cons_of_mem _ h)⟩
            intro h
            rcases hmem_iff.mp h with h' | h'
            · exact hm h'
            · apply ht
              rw [h']
              exact List.mem_cons_self _ _

/-- C5: for both policies, when the frame count is at least the number of
distinct page identifiers in the (non-negative) sequence, the run succeeds,
the final fault count equals the number of distinct pages, and a step faults
exactly when it is the first occurrence of its page in the sequence. -/
theorem enough_frames_first_faults
    (total_frames : Int) (seq : List Int)
    (hpos : ∀ p ∈ seq, 0 ≤ p)
    (hframes : (seq.toFinset.card : Int) ≤ total_frames) :
    (∃ m hist, LRUAlgorithm.simulate total_frames seq =
        some (seq.toFinset.card, m, hist) ∧
      ∀ k r, hist.get? k = some r →
        (r.page_fault = true ↔ r.page_accessed ∉ seq.take k)) ∧
    (∃ m hist, OptimalAlgorithm.simulate total_frames seq =
        some (seq.toFinset.card, m, hist) ∧
      ∀ k r, hist.get? k = some r →
        (r.page_fault = true ↔ r.page_accessed ∉ seq.take k)) := by
  have hres0 : residents (initMem total_frames) = ∅ := by
    ext q
    rw [mem_residents]
    simp only [Finset.not_mem_empty, iff_false]
    rintro ⟨hq, hqne⟩
    exact hqne (List.eq_of_mem_replicate hq)
  have hsd : seq.toFinset \ residents (initMem total_frames) = seq.toFinset := by
    rw [hres0, Finset.sdiff_empty]
  have hcount0 : (initMem total_frames).count (-1) = total_frames.toNat := by
    rw [initMem]
    exact List.count_replicate_self _ _
  have hcap : (seq.toFinset \ residents (initMem total_frames)).card ≤
      (initMem total_frames).count (-1) := by
    rw [hsd, hcount0]
    omega
  have hmemfree : ∀ q : Int, 0 ≤ q → q ∉ initMem total_frames := by
    intro q h0 hmem2
    rw [initMem] at hmem2
    have := List.eq_of_mem_replicate hmem2
    omega
  constructor
  · obtain ⟨m, hist, hrec, hfirst⟩ :=
      lru_loop_enough_frames seq (initMem total_frames) [] 0 hpos hcap
    rw [hsd] at hrec
    refine ⟨m, hist, by simpa using hrec, ?_⟩
    intro k r hk
    rw [hfirst k r hk]
    obtain ⟨-, -, hall⟩ :=
      lru_loop_trace seq (initMem total_frames) [] 0
        (0 + seq.toFinset.card) m hist hrec
    obtain ⟨hseq, -, -⟩ := hall k r hk
    have hpage : r.page_accessed ∈ seq := List.get?_mem hseq
    constructor
    · rintro ⟨-, h⟩; exact h
    · intro h
      exact ⟨hmemfree _ (hpos _ hpage), h⟩
  · obtain ⟨m, hist, hrec, hfirst⟩ :=
      opt_loop_enough_frames seq (initMem total_frames) 0 hpos hcap
    rw [hsd] at hrec
    refine ⟨m, hist, by simpa using hrec, ?_⟩
    intro k r hk
    rw [hfirst k r hk]
    obtain ⟨-, -, hall⟩ :=
      opt_loop_trace seq (initMem total_frames) 0
        (0 + seq.toFinset.card) m hist hrec
    obtain ⟨hseq, -, -⟩ := hall k r hk
    have hpage : r.page_accessed ∈ seq := List.get?_mem hseq
    constructor
    · rintro ⟨-, h⟩; exact h
    · intro h
      exact ⟨hmemfree _ (hpos _ hpage), h⟩

/-- Witness for C5: 3 frames, sequence `[1, 2, 1]` (2 distinct pages). -/
theorem enough_frames_first_faults_witness :
    (∃ m hist, LRUAlgorithm.simulate 3 [1, 2, 1] =
        some (([1, 2, 1] : List Int).toFinset.card, m, hist) ∧
      ∀ k r, hist.get? k = some r →
        (r.page_fault = true ↔ r.page_accessed ∉ ([1, 2, 1] : List Int).take k)) ∧
    (∃ m hist, OptimalAlgorithm.simulate 3 [1, 2, 1] =
        some (([1, 2, 1] : List Int).toFinset.card, m, hist) ∧
      ∀ k r, hist.get? k = some r →
        (r.page_fault = true ↔ r.page_accessed ∉ ([1, 2, 1] : List Int).take k)) :=
  enough_frames_first_faults 3 [1, 2, 1] (by decide) (by decide)
